import Mathlib

/-!
Verification of the retrieval-and-ranking core of the paper-search service.

The Rust sources are shallowly embedded:

* machine floating point (`f32` scores, distances) is modelled by exact
  rationals `ℚ`; the claims under study concern the algebraic shape of the
  score computation, ordering and truncation, not rounding;
* the Tantivy writer, the LanceDB table and the provider tasks are modelled
  as explicit state (lists of staged operations, lists of rows); concurrent
  provider joins are modelled sequentially in provider order, which is sound
  because the pipeline imposes its order solely by the deduplicate-and-rank
  step;
* fallible operations return `Except`; an abort of the process (a Rust
  panic) is a distinguished outcome where it matters.
-/

namespace PaperSearchMcp

/-- The canonical shared record type, embedded from `PaperResult` in
`src/apis/mod.rs` (field for field; `Vec<String>` becomes `List String`,
`Option<u32>` becomes `Option Nat`). -/
structure PaperResult where
  id : String
  title : String
  authors : List String
  abstract_text : Option String
  year : Option Nat
  source : String
  doi : Option String
  arxiv_id : Option String
  url : String
  pdf_url : Option String
  citation_count : Option Nat
deriving DecidableEq, Repr

/-! ## Rank fusion (`src/index/hybrid.rs`) -/

/-- The RRF constant, from `const RRF_K: f32 = 60.0` in `src/index/hybrid.rs`. -/
def RRF_K : ℚ := 60

/-- Contribution of one occurrence at zero-based rank `rank`:
`1.0 / (RRF_K + rank as f32 + 1.0)` in `hybrid_search`. -/
def rrfContrib (rank : Nat) : ℚ := 1 / (RRF_K + rank + 1)

/-- The accumulation loop
`for (rank, (id, _)) in list.into_iter().enumerate() { doc_scores.entry(id).or_default().rrf_score += 1/(K+rank+1) }`
of `hybrid_search` (Hybrid arm), with the hash map modelled as a total
function defaulting to `0`; `r` is the rank of the head of the remaining
list. -/
def rrfAccumFrom : Nat → List String → (String → ℚ) → (String → ℚ)
  | _, [], m => m
  | r, x :: xs, m =>
      rrfAccumFrom (r + 1) xs (fun y => if y = x then m x + rrfContrib r else m y)

/-- The fused score the two accumulation loops of the `Hybrid` arm assign to
`id`: first the BM25 list is folded in, then the vector list. -/
def fusedScore (bm25 vec : List String) (id : String) : ℚ :=
  rrfAccumFrom 0 vec (rrfAccumFrom 0 bm25 (fun _ => 0)) id

/-- Specification-side sum: total RRF contribution of the occurrences of
`id` in a single list whose head sits at rank `r`. -/
def contribSumFrom : Nat → String → List String → ℚ
  | _, _, [] => 0
  | r, id, x :: xs =>
      (if x = id then rrfContrib r else 0) + contribSumFrom (r + 1) id xs

/-- Comparison used to model
`results.sort_by(|a, b| b.rrf_score.partial_cmp(&a.rrf_score) ...)`:
`a` may precede `b` when `b.rrf_score ≤ a.rrf_score`.  Rust's `sort_by` is a
stable sort; it is modelled by `List.insertionSort`, which is also stable, so
both produce the unique sorted permutation preserving the original order of
ties. -/
def scoreDescRel (a b : String × ℚ) : Prop := b.2 ≤ a.2

instance : DecidableRel scoreDescRel := fun a b => inferInstanceAs (Decidable (b.2 ≤ a.2))

instance : IsTotal (String × ℚ) scoreDescRel := ⟨fun a b => le_total b.2 a.2⟩

instance : IsTrans (String × ℚ) scoreDescRel := ⟨fun _ _ _ h1 h2 => le_trans h2 h1⟩

/-- The `Hybrid` arm of `hybrid_search` in `src/index/hybrid.rs`.  The two
underlying stores are abstracted as functions from a requested candidate
count to a ranked `(id, raw score)` list (BM25 score, vector distance; the
raw values are diagnostic only and do not influence fusion).  The body
mirrors the source: fetch `limit * 3` candidates from each store, fold both
ranked lists into the score map, collect the ids (hash-map key order is
arbitrary in the source; modelled by `dedup` of the concatenation), sort by
descending fused score and truncate to `limit`. -/
def hybrid_search (ftSearch vecSearch : Nat → List (String × ℚ)) (limit : Nat) :
    List (String × ℚ) :=
  let fetch_limit := limit * 3
  let bm25 := (ftSearch fetch_limit).map Prod.fst
  let vec := (vecSearch fetch_limit).map Prod.fst
  let keys := (bm25 ++ vec).dedup
  (List.insertionSort scoreDescRel
    (keys.map (fun id => (id, fusedScore bm25 vec id)))).take limit

theorem rrfContrib_pos (r : Nat) : 0 < rrfContrib r := by
  have h : (0 : ℚ) < RRF_K + r + 1 := by
    have : (0 : ℚ) ≤ (r : ℚ) := by positivity
    unfold RRF_K
    linarith
  exact div_pos one_pos h

theorem rrfContrib_antitone {r s : Nat} (h : r ≤ s) : rrfContrib s ≤ rrfContrib r := by
  unfold rrfContrib
  have hc : (RRF_K + r + 1 : ℚ) ≤ RRF_K + s + 1 := by
    have : (r : ℚ) ≤ (s : ℚ) := by exact_mod_cast h
    linarith
  have hp : (0 : ℚ) < RRF_K + r + 1 := by
    have : (0 : ℚ) ≤ (r : ℚ) := by positivity
    unfold RRF_K
    linarith
  exact one_div_le_one_div_of_le hp hc

theorem contribSumFrom_nonneg (r : Nat) (id : String) (l : List String) :
    0 ≤ contribSumFrom r id l := by
  induction l generalizing r with
  | nil => simp [contribSumFrom]
  | cons x xs ih =>
      have hx := ih (r + 1)
      by_cases h : x = id <;>
        simp [contribSumFrom, h] <;>
        [exact add_nonneg (le_of_lt (rrfContrib_pos r)) hx; exact hx]

/-- The accumulation loop computes, per id, the sum of the contributions of
that id's occurrences. -/
theorem rrfAccumFrom_eq (l : List String) :
    ∀ (r : Nat) (m : String → ℚ) (id : String),
      rrfAccumFrom r l m id = m id + contribSumFrom r id l := by
  induction l with
  | nil => intro r m id; simp [rrfAccumFrom, contribSumFrom]
  | cons x xs ih =>
      intro r m id
      show rrfAccumFrom (r + 1) xs (fun y => if y = x then m x + rrfContrib r else m y) id
          = m id + ((if x = id then rrfContrib r else 0) + contribSumFrom (r + 1) id xs)
      rw [ih]
      by_cases h : id = x
      · rw [if_pos h, if_pos h.symm, h]
        ring
      · rw [if_neg h, if_neg (fun hxi => h hxi.symm)]
        ring

theorem fusedScore_eq (bm25 vec : List String) (id : String) :
    fusedScore bm25 vec id = contribSumFrom 0 id bm25 + contribSumFrom 0 id vec := by
  unfold fusedScore
  rw [rrfAccumFrom_eq, rrfAccumFrom_eq]
  ring

theorem contribSumFrom_of_not_mem {id : String} {l : List String} (h : id ∉ l) :
    ∀ r, contribSumFrom r id l = 0 := by
  induction l with
  | nil => intro r; rfl
  | cons x xs ih =>
      intro r
      have hx : x ≠ id := fun he => h (he ▸ List.mem_cons_self x xs)
      have hxs : id ∉ xs := fun hm => h (List.mem_cons_of_mem x hm)
      simp [contribSumFrom, hx, ih hxs]

theorem contribSumFrom_append_single {id : String} {pre post : List String}
    (hpre : id ∉ pre) (hpost : id ∉ post) :
    ∀ r, contribSumFrom r id (pre ++ id :: post) = rrfContrib (r + pre.length) := by
  induction pre with
  | nil =>
      intro r
      simp [contribSumFrom, contribSumFrom_of_not_mem hpost]
  | cons x xs ih =>
      intro r
      have hx : x ≠ id := fun he => hpre (he ▸ List.mem_cons_self x xs)
      have hxs : id ∉ xs := fun hm => hpre (List.mem_cons_of_mem x hm)
      show (if x = id then rrfContrib r else 0) + contribSumFrom (r + 1) id (xs ++ id :: post)
          = rrfContrib (r + (x :: xs).length)
      rw [if_neg hx, ih hxs (r + 1), zero_add, List.length_cons]
      congr 1
      omega

/-- C2.  RRF fusion score is monotonically non-decreasing as an item's rank
improves in either input list (the item occurring once, at rank `pre.length`;
a shorter prefix means an earlier rank), and an item present in both lists
scores at least as high as it would with either list's contribution removed
(same rank, single list). -/
theorem rrf_score_monotone_spec :
    (∀ (pre post pre2 post2 l2 : List String) (id : String),
        id ∉ pre → id ∉ post → id ∉ pre2 → id ∉ post2 →
        pre2.length ≤ pre.length →
        fusedScore (pre ++ id :: post) l2 id ≤ fusedScore (pre2 ++ id :: post2) l2 id) ∧
    (∀ (l1 pre post pre2 post2 : List String) (id : String),
        id ∉ pre → id ∉ post → id ∉ pre2 → id ∉ post2 →
        pre2.length ≤ pre.length →
        fusedScore l1 (pre ++ id :: post) id ≤ fusedScore l1 (pre2 ++ id :: post2) id) ∧
    (∀ (l1 l2 : List String) (id : String), fusedScore l1 [] id ≤ fusedScore l1 l2 id) ∧
    (∀ (l1 l2 : List String) (id : String), fusedScore [] l2 id ≤ fusedScore l1 l2 id) := by
  refine ⟨?_, ?_, ?_, ?_⟩
  · intro pre post pre2 post2 l2 id h1 h2 h3 h4 hlen
    rw [fusedScore_eq, fusedScore_eq,
      contribSumFrom_append_single h1 h2, contribSumFrom_append_single h3 h4]
    have := rrfContrib_antitone (show 0 + pre2.length ≤ 0 + pre.length by omega)
    linarith
  · intro l1 pre post pre2 post2 id h1 h2 h3 h4 hlen
    rw [fusedScore_eq, fusedScore_eq,
      contribSumFrom_append_single h1 h2, contribSumFrom_append_single h3 h4]
    have := rrfContrib_antitone (show 0 + pre2.length ≤ 0 + pre.length by omega)
    linarith
  · intro l1 l2 id
    rw [fusedScore_eq, fusedScore_eq]
    have h0 : contribSumFrom 0 id ([] : List String) = 0 := rfl
    have := contribSumFrom_nonneg 0 id l2
    linarith
  · intro l1 l2 id
    rw [fusedScore_eq, fusedScore_eq]
    have h0 : contribSumFrom 0 id ([] : List String) = 0 := rfl
    have := contribSumFrom_nonneg 0 id l1
    linarith

/-- Witness for C2 at concrete lists: the id at rank 0 scores at least as
well as at rank 1. -/
theorem rrf_score_monotone_spec_witness :
    fusedScore ["x", "a"] [] "a" ≤ fusedScore ["a", "x"] [] "a" :=
  rrf_score_monotone_spec.1 ["x"] [] [] ["x"] [] "a"
    (by decide) (by decide) (by decide) (by decide) (by decide)

/-- C1.  The hybrid fusion: every returned pair carries the RRF sum of its
occurrences in the two fetched ranked lists, the output is sorted by
descending fused score, at most `limit` results are returned, and the result
depends on the underlying stores only through the `limit * 3` candidates
requested from each. -/
theorem hybrid_search_rrf_fusion_spec
    (ftSearch vecSearch : Nat → List (String × ℚ)) (limit : Nat) :
    (∀ p ∈ hybrid_search ftSearch vecSearch limit,
        p.2 = contribSumFrom 0 p.1 ((ftSearch (limit * 3)).map Prod.fst)
            + contribSumFrom 0 p.1 ((vecSearch (limit * 3)).map Prod.fst)) ∧
    List.Sorted (fun a b : String × ℚ => b.2 ≤ a.2)
      (hybrid_search ftSearch vecSearch limit) ∧
    (hybrid_search ftSearch vecSearch limit).length ≤ limit ∧
    (∀ ft2 vec2 : Nat → List (String × ℚ),
        ft2 (limit * 3) = ftSearch (limit * 3) →
        vec2 (limit * 3) = vecSearch (limit * 3) →
        hybrid_search ft2 vec2 limit = hybrid_search ftSearch vecSearch limit) := by
  refine ⟨?_, ?_, ?_, ?_⟩
  · intro p hp
    have hp2 : p ∈ ((((ftSearch (limit * 3)).map Prod.fst ++ (vecSearch (limit * 3)).map Prod.fst).dedup).map
        (fun id => (id, fusedScore ((ftSearch (limit * 3)).map Prod.fst)
          ((vecSearch (limit * 3)).map Prod.fst) id))) := by
      have h1 : p ∈ List.insertionSort scoreDescRel
          ((((ftSearch (limit * 3)).map Prod.fst ++ (vecSearch (limit * 3)).map Prod.fst).dedup).map
            (fun id => (id, fusedScore ((ftSearch (limit * 3)).map Prod.fst)
              ((vecSearch (limit * 3)).map Prod.fst) id))) :=
        List.mem_of_mem_take hp
      exact (List.perm_insertionSort scoreDescRel _).mem_iff.mp h1
    rcases List.mem_map.mp hp2 with ⟨id, _, hid⟩
    rw [← hid]
    exact fusedScore_eq _ _ id
  · have hs := List.sorted_insertionSort scoreDescRel
      ((((ftSearch (limit * 3)).map Prod.fst ++ (vecSearch (limit * 3)).map Prod.fst).dedup).map
        (fun id => (id, fusedScore ((ftSearch (limit * 3)).map Prod.fst)
          ((vecSearch (limit * 3)).map Prod.fst) id)))
    exact hs.sublist (List.take_sublist limit _)
  · exact List.length_take_le _ _
  · intro ft2 vec2 h1 h2
    simp only [hybrid_search, h1, h2]

/-- Witness for C1 at concrete stores and limit 1: the returned pair carries
the RRF sum of its occurrences, and only the `limit * 3` probe matters. -/
theorem hybrid_search_rrf_fusion_spec_witness :
    ((("a", fusedScore ["a"] [] "a") : String × ℚ)).2
        = contribSumFrom 0 "a" (([("a", (1 : ℚ))] : List (String × ℚ)).map Prod.fst)
        + contribSumFrom 0 "a" (([] : List (String × ℚ)).map Prod.fst) ∧
    hybrid_search (fun n => if n = 3 then [("a", (1 : ℚ))] else [])
        (fun _ => ([] : List (String × ℚ))) 1
      = hybrid_search (fun _ => [("a", (1 : ℚ))]) (fun _ => ([] : List (String × ℚ))) 1 := by
  constructor
  · exact (hybrid_search_rrf_fusion_spec (fun _ => [("a", (1 : ℚ))]) (fun _ => []) 1).1
      ("a", fusedScore ["a"] [] "a")
      (by
        rw [show hybrid_search (fun _ => [("a", (1 : ℚ))]) (fun _ => []) 1
            = [("a", fusedScore ["a"] [] "a")] from rfl]
        exact List.mem_singleton_self _)
  · exact (hybrid_search_rrf_fusion_spec (fun _ => [("a", (1 : ℚ))]) (fun _ => []) 1).2.2.2
      (fun n => if n = 3 then [("a", (1 : ℚ))] else []) (fun _ => []) rfl rfl

/-! ## Federated search (`src/search.rs`) -/

/-- Inner step of the textbook Levenshtein recurrence, structurally recursive
on the second word; `len_xs` is the length of the tail of the first word and
`f` computes distances from that tail. -/
def levAux (x : Char) (len_xs : Nat) (f : List Char → Nat) : List Char → Nat
  | [] => len_xs + 1
  | y :: ys =>
      if x = y then f ys
      else 1 + min (f (y :: ys)) (min (levAux x len_xs f ys) (f ys))

/-- Unit-cost edit distance on character sequences: the standard Levenshtein
distance computed by the `strsim::levenshtein` call in
`deduplicate_and_rank` (`src/search.rs`), written as the textbook recurrence
(delete, insert, substitute at cost 1). -/
def levenshtein : List Char → List Char → Nat
  | [], ys => ys.length
  | x :: xs, ys => levAux x xs.length (levenshtein xs) ys

/-- Splitter for Rust's `split_whitespace`: maximal runs of non-whitespace
characters, empty runs skipped; `acc` holds the current run reversed. -/
def splitWsAux : List Char → List Char → List String
  | [], acc => if acc.isEmpty then [] else [String.mk acc.reverse]
  | c :: cs, acc =>
      if c.isWhitespace then
        if acc.isEmpty then splitWsAux cs []
        else String.mk acc.reverse :: splitWsAux cs []
      else splitWsAux cs (c :: acc)

/-- `normalize_title` from `src/search.rs`: lowercase, keep only
alphanumeric or whitespace characters, then re-join the whitespace-separated
words with single spaces.  Unicode lowercasing and the Unicode
alphanumeric/whitespace classes are modelled by Lean's per-character
`Char.toLower`, `Char.isAlphanum` and `Char.isWhitespace`. -/
def normalize_title (title : String) : String :=
  String.intercalate " "
    (splitWsAux ((title.data.map Char.toLower).filter
      (fun c => c.isAlphanum || c.isWhitespace)) [])

/-- `metadata_score` from `src/search.rs`: +1 non-empty title, +1 non-empty
authors, +2 present abstract, +1 present year, +2 present DOI, +1 present
citation count, +1 present pdf url. -/
def metadata_score (p : PaperResult) : Nat :=
  (if p.title ≠ "" then 1 else 0) +
  (if p.authors ≠ [] then 1 else 0) +
  (if p.abstract_text.isSome then 2 else 0) +
  (if p.year.isSome then 1 else 0) +
  (if p.doi.isSome then 2 else 0) +
  (if p.citation_count.isSome then 1 else 0) +
  (if p.pdf_url.isSome then 1 else 0)

/-- Order used to model the stable
`results.sort_by(|a, b| metadata_score(b).cmp(&metadata_score(a)))`. -/
def richnessRel (a b : PaperResult) : Prop := metadata_score b ≤ metadata_score a

instance : DecidableRel richnessRel :=
  fun a b => inferInstanceAs (Decidable (metadata_score b ≤ metadata_score a))

instance : IsTotal PaperResult richnessRel :=
  ⟨fun a b => le_total (metadata_score b) (metadata_score a)⟩

instance : IsTrans PaperResult richnessRel :=
  ⟨fun _ _ _ h1 h2 => le_trans h2 h1⟩

/-- Rust's `str::to_lowercase`, modelled per-character with `Char.toLower`
(the handful of Unicode characters whose lowercasing changes the character
count are not relevant to the claims). -/
def strToLower (s : String) : String := String.mk (s.data.map Char.toLower)

/-- The DOI of a record normalized to lowercase, when present
(`doi.to_lowercase()` in the dedup walk). -/
def normDoi (p : PaperResult) : Option String := p.doi.map strToLower

/-- The dedup walk of `deduplicate_and_rank` (`src/search.rs`): `seen` is
the set of already-seen lowercased DOIs (`seen_dois`), `ded` the kept
records (`deduped`).  A record with a DOI is dropped when its lowercased DOI
was seen; a record without a DOI is dropped when its normalized title is
within edit distance 5 of some kept record's normalized title. -/
def dedupWalk : List PaperResult → List String → List PaperResult → List PaperResult
  | [], _, ded => ded
  | p :: rest, seen, ded =>
      match p.doi with
      | some doi =>
          let doi_lower := strToLower doi
          if doi_lower ∈ seen then dedupWalk rest seen ded
          else dedupWalk rest (doi_lower :: seen) (ded ++ [p])
      | none =>
          let normalized := normalize_title p.title
          if ded.any (fun q =>
              levenshtein normalized.data (normalize_title q.title).data < 5) then
            dedupWalk rest seen ded
          else dedupWalk rest seen (ded ++ [p])

/-- The dedup stage of `deduplicate_and_rank`: stable sort by descending
metadata richness, then the dedup walk with empty seen-set. -/
def dedup_papers (results : List PaperResult) : List PaperResult :=
  dedupWalk (List.insertionSort richnessRel results) [] []

/-- Order used to model the final
`deduped.sort_by(...)`: citation count descending (missing treated as 0),
tie-broken by year descending (missing treated as 0). -/
def rankRel (a b : PaperResult) : Prop :=
  b.citation_count.getD 0 < a.citation_count.getD 0 ∨
    (b.citation_count.getD 0 = a.citation_count.getD 0 ∧ b.year.getD 0 ≤ a.year.getD 0)

instance : DecidableRel rankRel :=
  fun _ _ => inferInstanceAs (Decidable (_ ∨ _))

instance : IsTotal PaperResult rankRel := by
  constructor
  intro a b
  unfold rankRel
  rcases Nat.lt_trichotomy (b.citation_count.getD 0) (a.citation_count.getD 0) with h | h | h
  · exact Or.inl (Or.inl h)
  · rcases le_total (b.year.getD 0) (a.year.getD 0) with hy | hy
    · exact Or.inl (Or.inr ⟨h, hy⟩)
    · exact Or.inr (Or.inr ⟨h.symm, hy⟩)
  · exact Or.inr (Or.inl h)

instance : IsTrans PaperResult rankRel := by
  constructor
  intro a b c h1 h2
  unfold rankRel at h1 h2 ⊢
  rcases h1 with h1 | ⟨h1, h1y⟩ <;> rcases h2 with h2 | ⟨h2, h2y⟩
  · exact Or.inl (lt_trans h2 h1)
  · exact Or.inl (h2 ▸ h1)
  · exact Or.inl (lt_of_lt_of_le h2 (le_of_eq h1))
  · exact Or.inr ⟨h2.trans h1, le_trans h2y h1y⟩

/-- The ranking stage of `deduplicate_and_rank`: stable sort by `rankRel`,
then truncate to the cap. -/
def rank_papers (deduped : List PaperResult) (limit : Nat) : List PaperResult :=
  (List.insertionSort rankRel deduped).take limit

/-- `deduplicate_and_rank` from `src/search.rs`: early-return on empty
input, richness sort plus dedup walk, citation/year ranking, truncation. -/
def deduplicate_and_rank (results : List PaperResult) (limit : Nat) : List PaperResult :=
  if results.isEmpty then results
  else rank_papers (dedup_papers results) limit

/-- Rust's `str::eq_ignore_ascii_case`, used for the provider-name filter:
byte-wise equality after ASCII lowercasing. -/
def asciiLower (c : Char) : Char :=
  if c.toNat ≥ 65 ∧ c.toNat ≤ 90 then Char.ofNat (c.toNat + 32) else c

def eqIgnoreAsciiCase (a b : String) : Bool :=
  a.data.map asciiLower == b.data.map asciiLower

/-- A provider capability as consumed by `federated_search`: a name tag and
the `search(query, max_results)` operation, which may fail with a
provider-specific error.  Task panics are subsumed by the error case; both
contribute zero records. -/
structure Provider where
  name : String
  search : String → Nat → Except String (List PaperResult)

/-- The provider filter at the top of `federated_search`: keep the sources
whose name matches the requested subset case-insensitively; no filter keeps
everyone. -/
def activeSources (sources : List Provider) (source_filter : Option (List String)) :
    List Provider :=
  sources.filter (fun s =>
    match source_filter with
    | some f => f.any (fun name => eqIgnoreAsciiCase name s.name)
    | none => true)

/-- The fan-out-and-join of `federated_search`: every active provider is
queried with the per-source quota and successful results are concatenated; a
provider that errors (or whose task panics) contributes zero records. -/
def collectResults (active : List Provider) (query : String) (per_source : Nat) :
    List PaperResult :=
  active.foldl (fun acc s =>
    match s.search query per_source with
    | Except.ok rs => acc ++ rs
    | Except.error _ => acc) []

/-- `federated_search` from `src/search.rs`.  The concurrent provider tasks
are modelled sequentially in provider order (the final order is imposed only
by `deduplicate_and_rank`); `u32` quota arithmetic is modelled on `Nat`
(truncating division as in Rust). -/
def federated_search (sources : List Provider) (query : String)
    (max_results : Nat) (source_filter : Option (List String)) : List PaperResult :=
  let active := activeSources sources source_filter
  if active.isEmpty then []
  else
    let per_source := Nat.max (max_results * 2 / active.length) 5
    deduplicate_and_rank (collectResults active query per_source) max_results

/-- Records carrying the lowercased DOI `d`. -/
def hasNormDoi (d : String) (p : PaperResult) : Bool := decide (normDoi p = some d)

theorem dedupWalk_filter_of_seen (d : String) :
    ∀ (l : List PaperResult) (seen : List String) (ded : List PaperResult),
      d ∈ seen →
      (dedupWalk l seen ded).filter (hasNormDoi d) = ded.filter (hasNormDoi d) := by
  intro l
  induction l with
  | nil => intro seen ded _; rfl
  | cons p rest ih =>
      intro seen ded hd
      cases hdoi : p.doi with
      | none =>
          simp only [dedupWalk, hdoi]
          split
          · exact ih seen ded hd
          · rw [ih seen (ded ++ [p]) hd, List.filter_append,
              List.filter_cons_of_neg (by simp [hasNormDoi, normDoi, hdoi]),
              List.filter_nil, List.append_nil]
      | some doi =>
          simp only [dedupWalk, hdoi]
          by_cases hmem : strToLower doi ∈ seen
          · rw [if_pos hmem]
            exact ih seen ded hd
          · rw [if_neg hmem]
            have hne : strToLower doi ≠ d := fun he => hmem (he ▸ hd)
            rw [ih (strToLower doi :: seen) (ded ++ [p]) (List.mem_cons_of_mem _ hd),
              List.filter_append,
              List.filter_cons_of_neg (by simp [hasNormDoi, normDoi, hdoi, hne]),
              List.filter_nil, List.append_nil]

theorem dedupWalk_filter_of_not_seen (d : String) :
    ∀ (l : List PaperResult) (seen : List String) (ded : List PaperResult),
      d ∉ seen →
      (dedupWalk l seen ded).filter (hasNormDoi d)
        = ded.filter (hasNormDoi d) ++ (l.filter (hasNormDoi d)).take 1 := by
  intro l
  induction l with
  | nil => intro seen ded _; simp [dedupWalk]
  | cons p rest ih =>
      intro seen ded hd
      cases hdoi : p.doi with
      | none =>
          have hp : hasNormDoi d p = false := by simp [hasNormDoi, normDoi, hdoi]
          simp only [dedupWalk, hdoi]
          rw [List.filter_cons_of_neg (by simp [hp])]
          split
          · exact ih seen ded hd
          · rw [ih seen (ded ++ [p]) hd, List.filter_append,
              List.filter_cons_of_neg (by simp [hp]), List.filter_nil, List.append_nil]
      | some doi =>
          simp only [dedupWalk, hdoi]
          by_cases hmem : strToLower doi ∈ seen
          · have hne : strToLower doi ≠ d := fun he => hd (he ▸ hmem)
            rw [if_pos hmem, List.filter_cons_of_neg (by simp [hasNormDoi, normDoi, hdoi, hne])]
            exact ih seen ded hd
          · rw [if_neg hmem]
            by_cases heq : strToLower doi = d
            · have hp : hasNormDoi d p = true := by simp [hasNormDoi, normDoi, hdoi, heq]
              rw [dedupWalk_filter_of_seen d rest (strToLower doi :: seen) (ded ++ [p])
                  (heq ▸ List.mem_cons_self _ _),
                List.filter_append, List.filter_cons_of_pos (by simp [hp]),
                List.filter_cons_of_pos (by simp [hp])]
              simp
            · have hp : hasNormDoi d p = false := by simp [hasNormDoi, normDoi, hdoi, heq]
              have hd2 : d ∉ strToLower doi :: seen := by
                intro h
                rcases List.mem_cons.mp h with h | h
                · exact heq h.symm
                · exact hd h
              rw [ih (strToLower doi :: seen) (ded ++ [p]) hd2, List.filter_append,
                List.filter_cons_of_neg (by simp [hp]),
                List.filter_cons_of_neg (by simp [hp]), List.filter_nil, List.append_nil]

theorem dedup_papers_filter (l : List PaperResult) (d : String) :
    (dedup_papers l).filter (hasNormDoi d)
      = ((List.insertionSort richnessRel l).filter (hasNormDoi d)).take 1 := by
  have h := dedupWalk_filter_of_not_seen d (List.insertionSort richnessRel l) [] []
    (List.not_mem_nil d)
  simpa [dedup_papers] using h

/-- C3.  Two records sharing a lowercased DOI collapse to exactly one
survivor, the strictly richer one: filtered to that DOI, the dedup stage
keeps exactly the richer record. -/
theorem dedup_by_doi_keeps_richest
    (l : List PaperResult) (r1 r2 : PaperResult) (d : String)
    (h1 : r1 ∈ l) (h2 : r2 ∈ l)
    (hd1 : normDoi r1 = some d) (hd2 : normDoi r2 = some d)
    (hscore : metadata_score r2 < metadata_score r1)
    (honly : ∀ p ∈ l, normDoi p = some d → p = r1 ∨ p = r2) :
    (dedup_papers l).filter (hasNormDoi d) = [r1] ∧
    r1 ∈ dedup_papers l ∧ r2 ∉ dedup_papers l := by
  have hperm := List.perm_insertionSort richnessRel l
  have hne : r1 ≠ r2 := by
    intro he
    rw [he] at hscore
    exact lt_irrefl _ hscore
  have hr1s : r1 ∈ List.insertionSort richnessRel l := hperm.mem_iff.mpr h1
  have hr1f : r1 ∈ (List.insertionSort richnessRel l).filter (hasNormDoi d) :=
    List.mem_filter.mpr ⟨hr1s, by simp [hasNormDoi, hd1]⟩
  have hsorted : List.Pairwise richnessRel
      ((List.insertionSort richnessRel l).filter (hasNormDoi d)) :=
    (List.sorted_insertionSort richnessRel l).filter _
  obtain ⟨x, t, hxt⟩ : ∃ x t,
      (List.insertionSort richnessRel l).filter (hasNormDoi d) = x :: t := by
    cases hft : (List.insertionSort richnessRel l).filter (hasNormDoi d) with
    | nil => rw [hft] at hr1f; cases hr1f
    | cons x t => exact ⟨x, t, rfl⟩
  have hxr1 : x = r1 := by
    have hxm : x ∈ (List.insertionSort richnessRel l).filter (hasNormDoi d) :=
      hxt ▸ List.mem_cons_self x t
    have hxf := List.mem_filter.mp hxm
    rcases honly x (hperm.mem_iff.mp hxf.1) (by simpa [hasNormDoi] using hxf.2) with h | h
    · exact h
    · exfalso
      subst h
      have hr1t : r1 ∈ t := by
        rw [hxt] at hr1f
        rcases List.mem_cons.mp hr1f with h | h
        · exact absurd h hne
        · exact h
      have hrel : richnessRel x r1 := by
        rw [hxt] at hsorted
        exact (List.pairwise_cons.mp hsorted).1 r1 hr1t
      unfold richnessRel at hrel
      omega
  have hfilter : (dedup_papers l).filter (hasNormDoi d) = [r1] := by
    rw [dedup_papers_filter, hxt, hxr1]
    rfl
  refine ⟨hfilter, ?_, ?_⟩
  · exact List.mem_of_mem_filter (hfilter ▸ List.mem_singleton_self r1)
  · intro hmem
    have hr2f : r2 ∈ (dedup_papers l).filter (hasNormDoi d) :=
      List.mem_filter.mpr ⟨hmem, by simp [hasNormDoi, hd2]⟩
    rw [hfilter] at hr2f
    exact hne.symm (List.mem_singleton.mp hr2f)

/-- Concrete record for the C3 witness: DOI present plus abstract, year and
citation count (richness 8). -/
def wRich : PaperResult :=
  { id := "s2:1", title := "Paper A", authors := ["Ann Author"],
    abstract_text := some "An abstract.", year := some 2024, source := "s2",
    doi := some "10.1234/A", arxiv_id := none, url := "", pdf_url := none,
    citation_count := some 10 }

/-- Concrete record for the C3 witness: same DOI up to case, richness 3. -/
def wPoor : PaperResult :=
  { id := "arxiv:1", title := "Paper A arxiv", authors := [],
    abstract_text := none, year := none, source := "arxiv",
    doi := some "10.1234/a", arxiv_id := none, url := "", pdf_url := none,
    citation_count := none }

/-- Witness for C3 at two concrete records sharing a DOI up to case. -/
theorem dedup_by_doi_keeps_richest_witness :
    (dedup_papers [wPoor, wRich]).filter (hasNormDoi "10.1234/a") = [wRich] ∧
    wRich ∈ dedup_papers [wPoor, wRich] ∧ wPoor ∉ dedup_papers [wPoor, wRich] :=
  dedup_by_doi_keeps_richest [wPoor, wRich] wRich wPoor "10.1234/a"
    (by decide) (by decide) (by decide) (by decide) (by decide) (by decide)

/-- Concrete record for the C4 witness: citation count 1. -/
def exLow : PaperResult :=
  { id := "a", title := "aaaaaa", authors := [], abstract_text := none,
    year := some 2024, source := "test", doi := none, arxiv_id := none,
    url := "", pdf_url := none, citation_count := some 1 }

/-- Concrete record for the C4 witness: citation count 100. -/
def exHigh : PaperResult :=
  { id := "b", title := "bbbbbb", authors := [], abstract_text := none,
    year := some 2024, source := "test", doi := none, arxiv_id := none,
    url := "", pdf_url := none, citation_count := some 100 }

/-- Concrete record for the C4 witness: citation count 50. -/
def exMed : PaperResult :=
  { id := "c", title := "cccccc", authors := [], abstract_text := none,
    year := some 2024, source := "test", doi := none, arxiv_id := none,
    url := "", pdf_url := none, citation_count := some 50 }

/-- C4.  The ranking stage orders any deduplicated set by citation count
descending with year-descending tie-break (missing values as 0) and
truncates to the cap; on three distinct-titled records with citation counts
1, 100, 50 the full pipeline returns them in order 100, 50, 1. -/
theorem rank_by_citations_spec :
    (∀ (l : List PaperResult) (cap : Nat),
        List.Pairwise rankRel (rank_papers l cap) ∧ (rank_papers l cap).length ≤ cap) ∧
    deduplicate_and_rank [exLow, exHigh, exMed] 10 = [exHigh, exMed, exLow] := by
  constructor
  · intro l cap
    constructor
    · exact ((List.sorted_insertionSort rankRel l).sublist (List.take_sublist cap _))
    · exact List.length_take_le _ _
  · decide

/-- C9.  A federated search whose name filter excludes every provider, or
whose active providers all contribute zero records (empty result or error),
returns the empty list. -/
theorem federated_search_empty_spec (sources : List Provider) (query : String)
    (max_results : Nat) :
    (∀ f : List String,
        (∀ s ∈ sources, ∀ name ∈ f, eqIgnoreAsciiCase name s.name = false) →
        federated_search sources query max_results (some f) = []) ∧
    (∀ source_filter : Option (List String),
        (∀ s ∈ sources, ∀ n l, s.search query n = Except.ok l → l = []) →
        federated_search sources query max_results source_filter = []) := by
  constructor
  · intro f hf
    have hactive : activeSources sources (some f) = [] := by
      unfold activeSources
      rw [List.filter_eq_nil_iff]
      intro s hs
      simp only [Bool.not_eq_true, List.any_eq_false]
      intro name hname
      exact hf s hs name hname
    simp [federated_search, hactive]
  · intro source_filter hzero
    have hcollect : ∀ (active : List Provider),
        (∀ s ∈ active, s ∈ sources) → ∀ (per : Nat) (acc : List PaperResult),
        active.foldl (fun acc s =>
          match s.search query per with
          | Except.ok rs => acc ++ rs
          | Except.error _ => acc) acc = acc := by
      intro active
      induction active with
      | nil => intro _ per acc; rfl
      | cons s rest ih =>
          intro hsub per acc
          have hs : s ∈ sources := hsub s (List.mem_cons_self s rest)
          have hrest : ∀ x ∈ rest, x ∈ sources :=
            fun x hx => hsub x (List.mem_cons_of_mem s hx)
          show rest.foldl _
              (match s.search query per with
                | Except.ok rs => acc ++ rs
                | Except.error _ => acc) = acc
          cases hsr : s.search query per with
          | ok rs =>
              have hnil : rs = [] := hzero s hs per rs hsr
              subst hnil
              show List.foldl (fun acc s =>
                  match s.search query per with
                  | Except.ok rs => acc ++ rs
                  | Except.error _ => acc) (acc ++ []) rest = acc
              rw [List.append_nil]
              exact ih hrest per acc
          | error e => exact ih hrest per acc
    by_cases hempty : (activeSources sources source_filter).isEmpty = true
    · simp [federated_search, hempty]
    · have hsub : ∀ s ∈ activeSources sources source_filter, s ∈ sources :=
        fun s hs => List.mem_of_mem_filter hs
      have hnil : collectResults (activeSources sources source_filter) query
          (Nat.max (max_results * 2 / (activeSources sources source_filter).length) 5) = [] :=
        hcollect _ hsub _ []
      simp only [federated_search]
      rw [if_neg hempty, hnil]
      rfl

/-- Witness for C9: one provider, excluded by the name filter. -/
theorem federated_search_empty_spec_witness :
    federated_search [⟨"arxiv", fun _ _ => Except.ok []⟩] "quantum" 10 (some ["nosuch"]) = [] :=
  (federated_search_empty_spec [⟨"arxiv", fun _ _ => Except.ok []⟩] "quantum" 10).1
    ["nosuch"] (by decide)

/-! ## Lexical index (`src/index/fulltext.rs`) -/

/-- A committed Tantivy document, the projection indexed by
`FulltextIndex::add_paper`: id, title, optional abstract, optional joined
authors (the field is only added when `authors` is non-empty, joined with
a comma and space), optional year. -/
structure LexEntry where
  id : String
  title : String
  abstract_text : Option String
  authors : Option String
  year : Option Nat
deriving DecidableEq, Repr

/-- A staged writer operation: Tantivy's `delete_term` on the id field or
`add_document`.  Operations take effect, in order, at `commit`. -/
inductive LexOp where
  | deleteTerm (id : String)
  | addDoc (entry : LexEntry)
deriving DecidableEq, Repr

/-- The state of the `FulltextIndex`: the committed, reader-visible
documents and the writer's staged operation queue. -/
structure LexState where
  committed : List LexEntry
  staged : List LexOp
deriving DecidableEq, Repr

/-- The document built in `FulltextIndex::add_paper`. -/
def mkLexEntry (id title : String) (abstract_text : Option String)
    (authors : List String) (year : Option Nat) : LexEntry :=
  { id := id, title := title, abstract_text := abstract_text,
    authors := if authors.isEmpty then none
               else some (String.intercalate ", " authors),
    year := year }

namespace FulltextIndex

/-- `FulltextIndex::add_paper`: stage `delete_term(id)` then
`add_document(doc)`.  Buffered, visible only after `commit`. -/
def add_paper (s : LexState) (id title : String) (abstract_text : Option String)
    (authors : List String) (year : Option Nat) : LexState :=
  { s with staged := s.staged ++
      [LexOp.deleteTerm id, LexOp.addDoc (mkLexEntry id title abstract_text authors year)] }

/-- Effect of one staged operation on the committed documents: a delete
removes every document whose id term matches (only documents staged or
committed before it, which is what sequential application yields); an add
appends the document. -/
def applyOp (docs : List LexEntry) : LexOp → List LexEntry
  | LexOp.deleteTerm id => docs.filter (fun e => e.id ≠ id)
  | LexOp.addDoc entry => docs ++ [entry]

/-- `FulltextIndex::commit`: staged operations become visible in order, the
queue empties (writer commit plus reader reload). -/
def commit (s : LexState) : LexState :=
  { committed := s.staged.foldl applyOp s.committed, staged := [] }

/-- `FulltextIndex::delete`: stages a retraction; takes effect at commit. -/
def delete (s : LexState) (id : String) : LexState :=
  { s with staged := s.staged ++ [LexOp.deleteTerm id] }

/-- `FulltextIndex::count`: number of committed, non-retracted documents
(`reader.searcher().num_docs()`). -/
def count (s : LexState) : Nat := s.committed.length

end FulltextIndex

theorem length_filter_add_length_filter_not {α : Type} (p : α → Bool) (l : List α) :
    (l.filter p).length + (l.filter (fun a => !(p a))).length = l.length := by
  induction l with
  | nil => rfl
  | cons x xs ih =>
      cases hx : p x <;>
        simp [List.filter_cons, hx, ih] <;> omega

/-- C8.  Re-indexing an id present exactly once in a committed, quiescent
lexical index and committing again leaves exactly one entry for that id and
an unchanged `count()`. -/
theorem reindex_keeps_single_entry (s : LexState) (id title : String)
    (abstract_text : Option String) (authors : List String) (year : Option Nat)
    (hstaged : s.staged = [])
    (hone : (s.committed.filter (fun e => e.id == id)).length = 1) :
    ((FulltextIndex.commit
        (FulltextIndex.add_paper s id title abstract_text authors year)).committed.filter
      (fun e => e.id == id)).length = 1 ∧
    FulltextIndex.count
        (FulltextIndex.commit (FulltextIndex.add_paper s id title abstract_text authors year))
      = FulltextIndex.count s := by
  have hcommitted : (FulltextIndex.commit
      (FulltextIndex.add_paper s id title abstract_text authors year)).committed
      = s.committed.filter (fun e => e.id ≠ id)
        ++ [mkLexEntry id title abstract_text authors year] := by
    simp [FulltextIndex.commit, FulltextIndex.add_paper, hstaged, FulltextIndex.applyOp]
  constructor
  · rw [hcommitted, List.filter_append]
    have h1 : (s.committed.filter (fun e => e.id ≠ id)).filter (fun e => e.id == id) = [] := by
      rw [List.filter_eq_nil_iff]
      intro e he
      have := (List.mem_filter.mp he).2
      simp only [ne_eq, decide_not] at this
      simpa using this
    have h2 : ([mkLexEntry id title abstract_text authors year].filter
        (fun e => e.id == id)) = [mkLexEntry id title abstract_text authors year] := by
      simp [mkLexEntry]
    rw [h1, h2]
    rfl
  · rw [FulltextIndex.count, FulltextIndex.count, hcommitted, List.length_append]
    have hsplit := length_filter_add_length_filter_not (fun e => e.id == id) s.committed
    have hnotid : s.committed.filter (fun e => !(e.id == id))
        = s.committed.filter (fun e => e.id ≠ id) := by
      apply List.filter_congr
      intro e _
      by_cases h : e.id = id <;> simp [h]
    rw [hnotid] at hsplit
    simp only [List.length_singleton]
    omega

/-- Witness for C8: a one-document committed index, re-indexed with new
field values for the same id. -/
theorem reindex_keeps_single_entry_witness :
    ((FulltextIndex.commit
        (FulltextIndex.add_paper
          { committed := [mkLexEntry "arxiv:1" "Old Title" none [] none], staged := [] }
          "arxiv:1" "New Title" (some "An abstract.") ["Ann Author"] (some 2024))).committed.filter
      (fun e => e.id == "arxiv:1")).length = 1 ∧
    FulltextIndex.count
        (FulltextIndex.commit
          (FulltextIndex.add_paper
            { committed := [mkLexEntry "arxiv:1" "Old Title" none [] none], staged := [] }
            "arxiv:1" "New Title" (some "An abstract.") ["Ann Author"] (some 2024)))
      = FulltextIndex.count
          { committed := [mkLexEntry "arxiv:1" "Old Title" none [] none], staged := [] } :=
  reindex_keeps_single_entry
    { committed := [mkLexEntry "arxiv:1" "Old Title" none [] none], staged := [] }
    "arxiv:1" "New Title" (some "An abstract.") ["Ann Author"] (some 2024)
    (by decide) (by decide)

/-! ## Vector store (`src/index/vectordb.rs`) -/

/-- `pub const EMBEDDING_DIMENSION: usize = 768` from `src/embed/specter.rs`. -/
def EMBEDDING_DIMENSION : Nat := 768

/-- A row of the LanceDB `papers` table: the full record plus its embedding
(`f32` values modelled as exact rationals). -/
abbrev VecRow := PaperResult × List ℚ

/-- Outcome of `VectorStore::add_paper`: a successful append, a returned
`Err` (I/O failure of `table.add`, abstracted away by the pure model and
never produced by it), or a Rust panic aborting the call. -/
inductive AddPaperOutcome where
  | ok (rows : List VecRow)
  | err (msg : String)
  | panicked
deriving DecidableEq, Repr

def AddPaperOutcome.isErr : AddPaperOutcome → Bool
  | AddPaperOutcome.err _ => true
  | _ => false

namespace VectorStore

/-- `VectorStore::add_paper`: builds an Arrow `RecordBatch` whose embedding
column is a `FixedSizeListArray` of width `EMBEDDING_DIMENSION` built by
`FixedSizeListArray::from_iter_primitive(once(embedding), 768)`, then
appends it to the table.  arrow-rs's `FixedSizeListBuilder::finish` asserts
that the child values length equals `rows * 768`, so an embedding of any
other length panics before anything is written; a matching embedding is
appended as one new row (LanceDB `Table::add` appends, it does not
overwrite). -/
def add_paper (rows : List VecRow) (paper : PaperResult) (embedding : List ℚ) :
    AddPaperOutcome :=
  if embedding.length = EMBEDDING_DIMENSION then
    AddPaperOutcome.ok (rows ++ [(paper, embedding)])
  else AddPaperOutcome.panicked

/-- `VectorStore::get_paper`: a table scan filtered with `id = '<id>'`
(SQL-escaped, hence plain id equality) and `limit(1)`, reading the first
matching row of the stream.  LanceDB scans data fragments in the order they
were written, so the scan order is the append order of the rows. -/
def get_paper (rows : List VecRow) (id : String) : Option PaperResult :=
  ((rows.filter (fun r => r.1.id == id)).head?).map Prod.fst

/-- `VectorStore::delete`: removes every row whose id matches. -/
def delete (rows : List VecRow) (id : String) : List VecRow :=
  rows.filter (fun r => r.1.id ≠ id)

/-- `VectorStore::count`: `table.count_rows(None)`. -/
def count (rows : List VecRow) : Nat := rows.length

end VectorStore

/-- Concrete first-written row for the C6 counterexample. -/
def dupOld : PaperResult :=
  { id := "test:001", title := "Old Row", authors := [], abstract_text := none,
    year := some 2020, source := "test", doi := none, arxiv_id := none,
    url := "", pdf_url := none, citation_count := none }

/-- Concrete most-recently-written row for the C6 counterexample. -/
def dupNew : PaperResult :=
  { id := "test:001", title := "New Row", authors := [], abstract_text := none,
    year := some 2024, source := "test", doi := none, arxiv_id := none,
    url := "", pdf_url := none, citation_count := none }

/-- C6 counterexample: with two rows sharing an id (the second one written
later by a duplicate `add`), `get_paper` returns the FIRST-written row, not
the most recently written one. -/
theorem get_paper_returns_first_written :
    VectorStore.get_paper
        [(dupOld, List.replicate 768 (0 : ℚ)), (dupNew, List.replicate 768 (0 : ℚ))]
        "test:001" = some dupOld ∧
    dupOld ≠ dupNew := by
  constructor
  · rfl
  · decide

/-- C6 as amended: `get_paper` returns the earliest row in append order
whose id matches. -/
theorem get_paper_first_match (pre post : List VecRow) (r : VecRow) (id : String)
    (hpre : ∀ q ∈ pre, q.1.id ≠ id) (hr : r.1.id = id) :
    VectorStore.get_paper (pre ++ r :: post) id = some r.1 := by
  unfold VectorStore.get_paper
  rw [List.filter_append, List.filter_cons_of_pos (by simp [hr])]
  have hnil : pre.filter (fun q => q.1.id == id) = [] := by
    rw [List.filter_eq_nil_iff]
    intro q hq
    simpa using hpre q hq
  rw [hnil]
  rfl

/-- Witness for the amended C6 at a concrete two-row state. -/
theorem get_paper_first_match_witness :
    VectorStore.get_paper
        [(dupNew, List.replicate 768 (0 : ℚ)), (dupOld, List.replicate 768 (0 : ℚ))]
        "test:001" = some dupNew :=
  get_paper_first_match [] [(dupOld, List.replicate 768 (0 : ℚ))]
    (dupNew, List.replicate 768 (0 : ℚ)) "test:001"
    (by intro q hq; cases hq) (by decide)

/-- C7 counterexample: an embedding of length 3 (≠ 768) makes `add_paper`
panic inside the Arrow array construction; no `Err` value is returned (and
nothing is stored). -/
theorem add_paper_dimension_mismatch_panics :
    VectorStore.add_paper [] dupOld (List.replicate 3 (0 : ℚ)) = AddPaperOutcome.panicked ∧
    (VectorStore.add_paper [] dupOld (List.replicate 3 (0 : ℚ))).isErr = false := by
  constructor <;> rfl

/-- C7 as amended: any embedding whose length differs from the store-wide
dimension 768 is never stored — the call aborts with a panic in the Arrow
fixed-size-list construction instead of returning an error value. -/
theorem add_paper_dimension_mismatch_spec (rows : List VecRow) (paper : PaperResult)
    (embedding : List ℚ) (hlen : embedding.length ≠ EMBEDDING_DIMENSION) :
    VectorStore.add_paper rows paper embedding = AddPaperOutcome.panicked := by
  unfold VectorStore.add_paper
  rw [if_neg hlen]

/-- Witness for the amended C7 at a concrete 5-element embedding. -/
theorem add_paper_dimension_mismatch_spec_witness :
    VectorStore.add_paper [] dupNew (List.replicate 5 (0 : ℚ)) = AddPaperOutcome.panicked :=
  add_paper_dimension_mismatch_spec [] dupNew (List.replicate 5 (0 : ℚ)) (by decide)

/-! ## Local index orchestrator (`src/index/mod.rs`) -/

/-- The state owned by `LocalIndex`: the Tantivy fulltext index and the
LanceDB vector table. -/
structure LocalIndexState where
  fulltext : LexState
  vector : List VecRow
deriving DecidableEq, Repr

namespace LocalIndex

/-- State after the first step of `LocalIndex::index_paper`: the record's
projection staged into the fulltext writer (no commit yet). -/
def stage_fulltext (s : LocalIndexState) (paper : PaperResult) : LocalIndexState :=
  { s with fulltext := (FulltextIndex.add_paper s.fulltext paper.id paper.title
      paper.abstract_text paper.authors paper.year) }

/-- `LocalIndex::index_paper`: stage into the fulltext index, write to the
vector store, then commit the fulltext index.  The vector write
(`self.vector.add_paper(paper, embedding).await?`) is abstracted as a
fallible function on the table rows (the successful case appends the row;
failure is environmental I/O).  Each `?` returns early, leaving the
mutations already applied to `self` in place, so the result carries both the
`Result` and the post-state. -/
def index_paper (vecAdd : List VecRow → PaperResult → List ℚ → Except String (List VecRow))
    (s : LocalIndexState) (paper : PaperResult) (embedding : List ℚ) :
    Except String Unit × LocalIndexState :=
  match vecAdd (stage_fulltext s paper).vector paper embedding with
  | Except.error e => (Except.error e, stage_fulltext s paper)
  | Except.ok v2 =>
      (Except.ok (),
        { fulltext := FulltextIndex.commit (stage_fulltext s paper).fulltext, vector := v2 })

end LocalIndex

/-- C5.  If the vector-store write fails, `index_paper` propagates the error
without committing: the committed (externally visible) fulltext documents,
the fulltext `count()`, and the vector rows are all exactly as before the
call. -/
theorem index_paper_atomic_on_vector_failure
    (vecAdd : List VecRow → PaperResult → List ℚ → Except String (List VecRow))
    (s : LocalIndexState) (paper : PaperResult) (embedding : List ℚ) (e : String)
    (hfail : vecAdd s.vector paper embedding = Except.error e) :
    (LocalIndex.index_paper vecAdd s paper embedding).1 = Except.error e ∧
    (LocalIndex.index_paper vecAdd s paper embedding).2.fulltext.committed
      = s.fulltext.committed ∧
    (LocalIndex.index_paper vecAdd s paper embedding).2.vector = s.vector ∧
    FulltextIndex.count (LocalIndex.index_paper vecAdd s paper embedding).2.fulltext
      = FulltextIndex.count s.fulltext := by
  have h1 : LocalIndex.index_paper vecAdd s paper embedding
      = (Except.error e, LocalIndex.stage_fulltext s paper) := by
    unfold LocalIndex.index_paper
    rw [show vecAdd (LocalIndex.stage_fulltext s paper).vector paper embedding
        = Except.error e from hfail]
  rw [h1]
  refine ⟨rfl, ?_, rfl, ?_⟩ <;>
    simp [LocalIndex.stage_fulltext, FulltextIndex.add_paper, FulltextIndex.count]

/-- Witness for C5: a concrete one-record state whose vector write fails. -/
theorem index_paper_atomic_on_vector_failure_witness :
    (LocalIndex.index_paper (fun _ _ _ => Except.error "disk full")
        { fulltext := { committed := [], staged := [] }, vector := [] }
        dupOld (List.replicate 768 (0 : ℚ))).1 = Except.error "disk full" ∧
    (LocalIndex.index_paper (fun _ _ _ => Except.error "disk full")
        { fulltext := { committed := [], staged := [] }, vector := [] }
        dupOld (List.replicate 768 (0 : ℚ))).2.fulltext.committed
      = ({ committed := [], staged := [] } : LexState).committed ∧
    (LocalIndex.index_paper (fun _ _ _ => Except.error "disk full")
        { fulltext := { committed := [], staged := [] }, vector := [] }
        dupOld (List.replicate 768 (0 : ℚ))).2.vector = [] ∧
    FulltextIndex.count (LocalIndex.index_paper (fun _ _ _ => Except.error "disk full")
        { fulltext := { committed := [], staged := [] }, vector := [] }
        dupOld (List.replicate 768 (0 : ℚ))).2.fulltext
      = FulltextIndex.count ({ committed := [], staged := [] } : LexState) :=
  index_paper_atomic_on_vector_failure (fun _ _ _ => Except.error "disk full")
    { fulltext := { committed := [], staged := [] }, vector := [] }
    dupOld (List.replicate 768 (0 : ℚ)) "disk full" rfl

/-- `resolve_results` from `src/index/hybrid.rs`: look each scored id up in
the vector store, pushing the hits in order; a miss is skipped. -/
def resolve_results (rows : List VecRow) (scored : List (String × ℚ)) : List PaperResult :=
  scored.foldl (fun papers sr =>
    match VectorStore.get_paper rows sr.1 with
    | some paper => papers ++ [paper]
    | none => papers) []

/-- C10.  Resolving scored results returns exactly the records of the ids
that resolve in the vector store, in the scored order; an id that fails to
resolve is silently skipped. -/
theorem resolve_results_spec (rows : List VecRow) (scored : List (String × ℚ)) :
    resolve_results rows scored
      = scored.filterMap (fun sr => VectorStore.get_paper rows sr.1) := by
  have hgen : ∀ (l : List (String × ℚ)) (acc : List PaperResult),
      l.foldl (fun papers sr =>
        match VectorStore.get_paper rows sr.1 with
        | some paper => papers ++ [paper]
        | none => papers) acc
        = acc ++ l.filterMap (fun sr => VectorStore.get_paper rows sr.1) := by
    intro l
    induction l with
    | nil => intro acc; simp
    | cons x xs ih =>
        intro acc
        cases hx : VectorStore.get_paper rows x.1 with
        | none => simp [List.foldl_cons, List.filterMap_cons, hx, ih]
        | some p => simp [List.foldl_cons, List.filterMap_cons, hx, ih]
  simpa using hgen scored []

end PaperSearchMcp
